import Mathlib

set_option autoImplicit false

universe u

namespace SellerApis

/-!
Shallow embedding of the reconciliation, normalization, pagination and
batching logic of `seller.py` (Ozon) and `market.py` (Yandex.Market).
Spreadsheet cells are modelled as text fields; Python exceptions are
modelled as `none` / `Except.error`; in-place mutation of the `offer_ids`
list is modelled by returning its final contents alongside the result.
-/

/-- One row of the vendor spreadsheet (an entry of `watch_remnants`), with
the three fields the reconciliation reads: `str(watch.get("Код"))` is
modelled by `code`, `str(watch.get("Количество"))` by `quantity`, and
`watch.get("Цена")` by `price`. -/
structure Watch where
  code : String
  quantity : String
  price : String
deriving Repr, DecidableEq

/-- Numeric value of a list of decimal digits, most significant first. -/
def digitsVal (l : List Char) : Nat :=
  l.foldl (fun acc c => 10 * acc + (c.toNat - 48)) 0

/-- Surrounding spaces are ignored by Python's `int`; drop them from both
ends of the character list. -/
def stripSpaces (l : List Char) : List Char :=
  ((l.dropWhile (· = ' ')).reverse.dropWhile (· = ' ')).reverse

/-- Model of Python's `int(s)` on a text field: optional surrounding
spaces, an optional sign, then one or more decimal digits; anything else
raises `ValueError`, modelled as `none`. -/
def pyInt (s : String) : Option Int :=
  match stripSpaces s.toList with
  | [] => none
  | '-' :: ds =>
    if ds ≠ [] ∧ ds.all Char.isDigit then some (-(digitsVal ds : Int)) else none
  | '+' :: ds =>
    if ds ≠ [] ∧ ds.all Char.isDigit then some ((digitsVal ds : Int)) else none
  | ds =>
    if ds.all Char.isDigit then some ((digitsVal ds : Int)) else none

/-- The quantity rule inlined identically in `seller.create_stocks` and
`market.create_stocks`: text `">10"` becomes 100, text `"1"` becomes 0,
anything else is `int(count)` (`none` on non-numeric text). -/
def normalizeCount (count : String) : Option Int :=
  if count = ">10" then some 100
  else if count = "1" then some 0
  else pyInt count

/-- Model of Python `s.split(".")`, cutting at every `'.'`; the accumulator
holds the current piece reversed. -/
def splitDot : List Char → List Char → List (List Char)
  | [], acc => [acc.reverse]
  | c :: cs, acc =>
    if c = '.' then acc.reverse :: splitDot cs [] else splitDot cs (c :: acc)

/-- Embedding of `seller.price_conversion`:
`re.sub("[^0-9]", "", price.split(".")[0])` — keep only the ASCII digits
of the part before the first dot. -/
def price_conversion (price : String) : String :=
  String.mk (((splitDot price.toList []).headD []).filter Char.isDigit)

/-- A stock payload entry built by `seller.create_stocks`
(the `offer_id` / `stock` fields of the appended dict). -/
structure StockItem where
  offer_id : String
  stock : Int
deriving Repr, DecidableEq

/-- The first loop of `seller.create_stocks`: walk `watch_remnants`, and
for each record whose code is among `offer_ids` append a stock entry with
the normalized quantity and remove that code from `offer_ids` (Python
`list.remove` deletes the first occurrence). `stocks` is the list built so
far; `none` models an uncaught `ValueError` from `int(...)`. -/
def createStocksLoop :
    List Watch → List StockItem → List String → Option (List StockItem × List String)
  | [], stocks, offer_ids => some (stocks, offer_ids)
  | w :: ws, stocks, offer_ids =>
    if w.code ∈ offer_ids then
      match normalizeCount w.quantity with
      | none => none
      | some q => createStocksLoop ws (stocks ++ [⟨w.code, q⟩]) (offer_ids.erase w.code)
    else
      createStocksLoop ws stocks offer_ids

/-- Embedding of `seller.create_stocks`. Returns the built stock list and
the final contents of the caller's (mutated in place) `offer_ids` list:
after the first loop, every identifier still in `offer_ids` receives a
zero-stock entry. -/
def create_stocks (watch_remnants : List Watch) (offer_ids : List String) :
    Option (List StockItem × List String) :=
  match createStocksLoop watch_remnants [] offer_ids with
  | none => none
  | some (stocks, rest) => some (stocks ++ rest.map (fun i => ⟨i, 0⟩), rest)

/-- A price payload entry built by `seller.create_prices`. -/
structure PriceItem where
  auto_action_enabled : String
  currency_code : String
  offer_id : String
  old_price : String
  price : String
deriving Repr, DecidableEq

/-- Embedding of `seller.create_prices`: one price entry per record whose
code is among `offer_ids`; `offer_ids` is only read, never mutated, and
`price_conversion`'s output is stored as is. -/
def create_prices : List Watch → List String → List PriceItem
  | [], _ => []
  | w :: ws, offer_ids =>
    if w.code ∈ offer_ids then
      ⟨"UNKNOWN", "RUB", w.code, "0", price_conversion w.price⟩ :: create_prices ws offer_ids
    else
      create_prices ws offer_ids

/-- The `price` object of a `market.create_prices` entry. -/
structure PriceValueB where
  value : Int
  currencyId : String
deriving Repr, DecidableEq

/-- A price payload entry built by `market.create_prices`. -/
structure PriceItemB where
  id : String
  price : PriceValueB
deriving Repr, DecidableEq

/-- Embedding of `market.create_prices`: like the Ozon variant but the
value is `int(price_conversion(...))`, whose `ValueError` (in particular
on the empty string) aborts the whole call — modelled as `none`. -/
def market_create_prices : List Watch → List String → Option (List PriceItemB)
  | [], _ => some []
  | w :: ws, offer_ids =>
    if w.code ∈ offer_ids then
      match pyInt (price_conversion w.price) with
      | none => none
      | some v =>
        (market_create_prices ws offer_ids).map (fun ps => ⟨w.code, ⟨v, "RUR"⟩⟩ :: ps)
    else
      market_create_prices ws offer_ids

/-- An element of the `items` list of a `market.create_stocks` entry. -/
structure StockEntryB where
  count : Int
  type : String
  updatedAt : String
deriving Repr, DecidableEq

/-- A stock payload entry built by `market.create_stocks`. -/
structure StockItemB where
  sku : String
  warehouseId : String
  items : List StockEntryB
deriving Repr, DecidableEq

/-- The first loop of `market.create_stocks`: same matching, quantity
normalization and `offer_ids.remove` as the Ozon variant, with the
Yandex payload shape. -/
def marketStocksLoop (warehouse_id date : String) :
    List Watch → List StockItemB → List String → Option (List StockItemB × List String)
  | [], stocks, offer_ids => some (stocks, offer_ids)
  | w :: ws, stocks, offer_ids =>
    if w.code ∈ offer_ids then
      match normalizeCount w.quantity with
      | none => none
      | some q =>
        marketStocksLoop warehouse_id date ws
          (stocks ++ [⟨w.code, warehouse_id, [⟨q, "FIT", date⟩]⟩]) (offer_ids.erase w.code)
    else
      marketStocksLoop warehouse_id date ws stocks offer_ids

/-- Embedding of `market.create_stocks`; `date` stands for the
`datetime.utcnow()` timestamp string computed once per call. -/
def market_create_stocks (watch_remnants : List Watch) (offer_ids : List String)
    (warehouse_id date : String) : Option (List StockItemB × List String) :=
  match marketStocksLoop warehouse_id date watch_remnants [] offer_ids with
  | none => none
  | some (stocks, rest) =>
    some (stocks ++ rest.map (fun i => ⟨i, warehouse_id, [⟨0, "FIT", date⟩]⟩), rest)

/-- Embedding of `seller.divide`: the chunks `lst[i : i+n]` for
`i = 0, n, 2n, ...`. For `n = 0` Python's `range` raises `ValueError`, so
that case never arises in the program; the model returns `[]` there. -/
def divide {α : Type u} (lst : List α) (n : Nat) : List (List α) :=
  if h : n = 0 ∨ lst.isEmpty then [] else lst.take n :: divide (lst.drop n) n
termination_by lst.length
decreasing_by
  simp only [List.length_drop]
  have hn : n ≠ 0 := fun hh => h (Or.inl hh)
  have hl : lst ≠ [] := by
    intro hh
    exact h (Or.inr (by simp [hh]))
  have := List.length_pos.mpr hl
  omega

/-- A product item of an Ozon product-list response. -/
structure ProductA where
  offer_id : String
deriving Repr, DecidableEq

/-- One response of the Ozon product-list endpoint as read by
`seller.get_offer_ids`: its `items`, `total` and `last_id` fields.
`last_id` is the opaque cursor passed to the next request; in the model
the response sequence is given up front, so it carries no extra data. -/
structure PageA where
  items : List ProductA
  total : Nat
  last_id : String
deriving Repr, DecidableEq, Inhabited

/-- The `while True` loop of `seller.get_offer_ids` over the successive
API responses: extend the accumulated product list, stop when the reported
`total` equals its length. `none` models a run that exhausts the given
responses without the stop condition ever holding. -/
def getOfferIdsLoopA : List PageA → List ProductA → Option (List ProductA)
  | [], _ => none
  | p :: ps, acc =>
    let acc2 := acc ++ p.items
    if p.total = acc2.length then some acc2 else getOfferIdsLoopA ps acc2

/-- Embedding of `seller.get_offer_ids`: run the pagination loop from an
empty accumulator, then project each product's `offer_id`. -/
def get_offer_ids (pages : List PageA) : Option (List String) :=
  (getOfferIdsLoopA pages []).map (List.map ProductA.offer_id)

/-- An `offerMappingEntries` element; `shopSku` models
`product.get("offer").get("shopSku")`. -/
structure EntryB where
  shopSku : String
deriving Repr, DecidableEq

/-- One response of the Yandex.Market offer-mapping endpoint as read by
`market.get_offer_ids`; `nextPageToken` models
`paging.nextPageToken`, with `""` for an absent or empty token (Python
falsiness of the cursor). -/
structure PageB where
  offerMappingEntries : List EntryB
  nextPageToken : String
deriving Repr, DecidableEq, Inhabited

/-- The `while True` loop of `market.get_offer_ids`: extend the
accumulated entry list and stop as soon as the current response's
next-page token is empty. -/
def getOfferIdsLoopB : List PageB → List EntryB → Option (List EntryB)
  | [], _ => none
  | p :: ps, acc =>
    let acc2 := acc ++ p.offerMappingEntries
    if p.nextPageToken = "" then some acc2 else getOfferIdsLoopB ps acc2

/-- Embedding of `market.get_offer_ids`: run the pagination loop from an
empty accumulator, then project each entry's `shopSku`. -/
def market_get_offer_ids (pages : List PageB) : Option (List String) :=
  (getOfferIdsLoopB pages []).map (List.map EntryB.shopSku)

/-- Control flow of `seller.download_stock` after the archive extraction:
`pd.read_excel(...)` and then `os.remove("./ostatki.xls")` run in sequence
with no `try`/`finally`, so a parse exception (`Except.error`) propagates
before the removal statement is reached. The `Bool` records whether the
extracted file was removed. -/
def download_stock_after_extract (parsed : Except String (List Watch)) :
    Except String (List Watch) × Bool :=
  match parsed with
  | .error e => (.error e, false)
  | .ok ws => (.ok ws, true)

/-! ### Helper lemmas about the price normalizer -/

lemma splitDot_headD (l acc : List Char) :
    (splitDot l acc).headD [] = acc.reverse ++ l.takeWhile (fun c => c != '.') := by
  induction l generalizing acc with
  | nil => simp [splitDot]
  | cons c cs ih =>
    by_cases hc : c = '.'
    · subst hc
      simp [splitDot]
    · simp only [splitDot, if_neg hc, ih (c :: acc), List.reverse_cons,
        List.takeWhile_cons]
      have hb : (c != '.') = true := by simp [hc]
      simp [hb]

/-! ### Helper lemmas about the batcher -/

lemma divide_flatten {α : Type u} (lst : List α) (n : Nat) (hn : 0 < n) :
    (divide lst n).flatten = lst := by
  induction lst, n using divide.induct with
  | case1 lst n h =>
    rcases h with h | h
    · omega
    · rw [divide, dif_pos (Or.inr h)]
      simp_all [List.isEmpty_iff]
  | case2 lst n h ih =>
    rw [divide, dif_neg h]
    simp only [List.flatten_cons]
    rw [ih hn]
    exact List.take_append_drop n lst

lemma divide_chunk_le {α : Type u} (lst : List α) (n : Nat) :
    ∀ c ∈ divide lst n, c.length ≤ n := by
  induction lst, n using divide.induct with
  | case1 lst n h =>
    rw [divide, dif_pos h]
    simp
  | case2 lst n h ih =>
    rw [divide, dif_neg h]
    intro c hc
    rcases List.mem_cons.mp hc with rfl | hc
    · simp
    · exact ih c hc

lemma divide_short_count {α : Type u} (lst : List α) (n : Nat) (hn : 0 < n) :
    (divide lst n).countP (fun c => decide (c.length < n)) =
      (if n ∣ lst.length then 0 else 1) := by
  induction lst, n using divide.induct with
  | case1 lst n h =>
    rcases h with h | h
    · omega
    · rw [divide, dif_pos (Or.inr h)]
      have : lst = [] := List.isEmpty_iff.mp h
      subst this
      simp
  | case2 lst n h ih =>
    rw [divide, dif_neg h]
    push_neg at h
    obtain ⟨hn0, hne⟩ := h
    have hlpos : 0 < lst.length := List.length_pos.mpr (by simpa [List.isEmpty_iff] using hne)
    rw [List.countP_cons, ih hn]
    by_cases hlt : lst.length < n
    · have htake : (lst.take n).length = lst.length := by
        simp [List.length_take]
        omega
      have hdrop : lst.drop n = [] := List.drop_eq_nil_of_le (le_of_lt hlt)
      rw [hdrop]
      have hnd1 : ¬ n ∣ lst.length := by
        intro hdvd
        rcases hdvd with ⟨k, hk⟩
        rcases k with _ | k
        · omega
        · have : n ≤ lst.length := by
            rw [hk]
            exact Nat.le_mul_of_pos_right n (Nat.succ_pos k)
          omega
      simp [divide, htake, hlt, hnd1]
    · have htake : (lst.take n).length = n := by
        simp [List.length_take]
        omega
      have hsub : n ∣ lst.length - n ↔ n ∣ lst.length := by
        constructor
        · intro hd
          have := Nat.dvd_add hd (dvd_refl n)
          rwa [Nat.sub_add_cancel (by omega)] at this
        · intro hd
          exact Nat.dvd_sub' hd (dvd_refl n)
      rw [htake]
      by_cases hc : n ∣ lst.length
      · simp [List.length_drop, hsub, hc]
      · simp [List.length_drop, hsub, hc]

/-! ### Helper lemmas about the quantity normalizer -/

lemma mem_stripSpaces (l : List Char) (c : Char) (hc : c ∈ stripSpaces l) : c ∈ l := by
  unfold stripSpaces at hc
  rw [List.mem_reverse] at hc
  have h1 := (List.dropWhile_sublist (fun x => x = ' ')
    (l := (l.dropWhile (fun x => x = ' ')).reverse)).mem hc
  rw [List.mem_reverse] at h1
  exact (List.dropWhile_sublist (fun x => x = ' ')).mem h1

lemma pyInt_nonneg (s : String) (q : Int) (hq : pyInt s = some q)
    (h : '-' ∉ s.toList) : 0 ≤ q := by
  unfold pyInt at hq
  split at hq
  · exact absurd hq (by simp)
  · rename_i ds heq
    exact absurd (mem_stripSpaces s.toList '-' (by rw [heq]; exact List.mem_cons_self _ _)) h
  · split at hq
    · rw [Option.some_inj] at hq
      rw [← hq]
      exact Int.natCast_nonneg _
    · exact absurd hq (by simp)
  · split at hq
    · rw [Option.some_inj] at hq
      rw [← hq]
      exact Int.natCast_nonneg _
    · exact absurd hq (by simp)

/-! ### Helper lemmas about price-update construction -/

lemma market_create_prices_fails (ws : List Watch) (ids : List String) (w : Watch)
    (hw : w ∈ ws) (hcode : w.code ∈ ids) (hempty : price_conversion w.price = "") :
    market_create_prices ws ids = none := by
  induction ws with
  | nil => cases hw
  | cons w0 rest ih =>
    rcases List.mem_cons.mp hw with rfl | hw2
    · simp [market_create_prices, hcode, hempty, show pyInt "" = none from rfl]
    · by_cases h0 : w0.code ∈ ids
      · cases hp : pyInt (price_conversion w0.price) with
        | none => simp [market_create_prices, h0, hp]
        | some v => simp [market_create_prices, h0, hp, ih hw2]
      · simp [market_create_prices, h0, ih hw2]

lemma create_prices_mem_of_match (ws : List Watch) (ids : List String) (w : Watch)
    (hw : w ∈ ws) (hcode : w.code ∈ ids) :
    ∃ p ∈ create_prices ws ids,
      p.offer_id = w.code ∧ p.price = price_conversion w.price := by
  induction ws with
  | nil => cases hw
  | cons w0 rest ih =>
    rcases List.mem_cons.mp hw with rfl | hw2
    · refine ⟨⟨"UNKNOWN", "RUB", w.code, "0", price_conversion w.price⟩, ?_, rfl, rfl⟩
      simp [create_prices, hcode]
    · obtain ⟨p, hp, h1, h2⟩ := ih hw2
      by_cases h0 : w0.code ∈ ids
      · exact ⟨p, by simp only [create_prices, if_pos h0]; exact List.mem_cons_of_mem _ hp,
          h1, h2⟩
      · exact ⟨p, by simp only [create_prices, if_neg h0]; exact hp, h1, h2⟩

/-! ### Helper lemmas about pagination -/

/-- The products accumulated after processing responses `0` to `k` of an
Ozon product-list run. -/
def pagesItemsA (pages : List PageA) (k : Nat) : List ProductA :=
  ((pages.take (k + 1)).map PageA.items).flatten

/-- The entries accumulated after processing responses `0` to `k` of a
Yandex.Market offer-mapping run. -/
def pagesEntriesB (pages : List PageB) (k : Nat) : List EntryB :=
  ((pages.take (k + 1)).map PageB.offerMappingEntries).flatten

@[simp] lemma pagesItemsA_cons_zero (p : PageA) (ps : List PageA) :
    pagesItemsA (p :: ps) 0 = p.items := by
  simp [pagesItemsA]

@[simp] lemma pagesItemsA_cons_succ (p : PageA) (ps : List PageA) (k : Nat) :
    pagesItemsA (p :: ps) (k + 1) = p.items ++ pagesItemsA ps k := by
  simp [pagesItemsA, List.take_succ_cons]

@[simp] lemma pagesEntriesB_cons_zero (p : PageB) (ps : List PageB) :
    pagesEntriesB (p :: ps) 0 = p.offerMappingEntries := by
  simp [pagesEntriesB]

@[simp] lemma pagesEntriesB_cons_succ (p : PageB) (ps : List PageB) (k : Nat) :
    pagesEntriesB (p :: ps) (k + 1) = p.offerMappingEntries ++ pagesEntriesB ps k := by
  simp [pagesEntriesB, List.take_succ_cons]

lemma getOfferIdsLoopA_eq_some (pages : List PageA) :
    ∀ acc res : List ProductA,
      getOfferIdsLoopA pages acc = some res ↔
        ∃ k, k < pages.length ∧
          (∀ j, j < k →
            (pages.getD j default).total ≠ acc.length + (pagesItemsA pages j).length) ∧
          (pages.getD k default).total = acc.length + (pagesItemsA pages k).length ∧
          res = acc ++ pagesItemsA pages k := by
  induction pages with
  | nil =>
    intro acc res
    simp [getOfferIdsLoopA]
  | cons p ps ih =>
    intro acc res
    simp only [getOfferIdsLoopA]
    by_cases hstop : p.total = (acc ++ p.items).length
    · rw [if_pos hstop]
      constructor
      · intro h
        rw [Option.some_inj] at h
        refine ⟨0, Nat.succ_pos _, fun j hj => absurd hj (Nat.not_lt_zero j), ?_, ?_⟩
        · simpa [List.length_append] using hstop
        · simp [← h]
      · rintro ⟨k, hk, hprev, hcur, hres⟩
        rcases k with _ | k
        · rw [Option.some_inj]
          simpa using hres.symm
        · exact absurd (by simpa [List.length_append] using hstop) (hprev 0 (Nat.succ_pos _))
    · rw [if_neg hstop]
      rw [ih (acc ++ p.items) res]
      constructor
      · rintro ⟨k, hk, hprev, hcur, hres⟩
        refine ⟨k + 1, Nat.succ_lt_succ hk, ?_, ?_, ?_⟩
        · intro j hj
          rcases j with _ | j
          · simpa [List.length_append] using hstop
          · have := hprev j (Nat.lt_of_succ_lt_succ hj)
            simp only [List.getD_cons_succ, pagesItemsA_cons_succ, List.length_append] at *
            omega
        · simp only [List.getD_cons_succ, pagesItemsA_cons_succ, List.length_append] at *
          omega
        · simp only [pagesItemsA_cons_succ, List.append_assoc] at *
          exact hres
      · rintro ⟨k, hk, hprev, hcur, hres⟩
        rcases k with _ | k
        · exact absurd (by simpa [List.length_append] using hcur) hstop
        · refine ⟨k, Nat.lt_of_succ_lt_succ hk, ?_, ?_, ?_⟩
          · intro j hj
            have := hprev (j + 1) (Nat.succ_lt_succ hj)
            simp only [List.getD_cons_succ, pagesItemsA_cons_succ, List.length_append] at *
            omega
          · simp only [List.getD_cons_succ, pagesItemsA_cons_succ, List.length_append] at *
            omega
          · simp only [pagesItemsA_cons_succ, List.append_assoc] at *
            exact hres

lemma getOfferIdsLoopB_eq_some (pages : List PageB) :
    ∀ acc res : List EntryB,
      getOfferIdsLoopB pages acc = some res ↔
        ∃ k, k < pages.length ∧
          (∀ j, j < k → (pages.getD j default).nextPageToken ≠ "") ∧
          (pages.getD k default).nextPageToken = "" ∧
          res = acc ++ pagesEntriesB pages k := by
  induction pages with
  | nil =>
    intro acc res
    simp [getOfferIdsLoopB]
  | cons p ps ih =>
    intro acc res
    simp only [getOfferIdsLoopB]
    by_cases hstop : p.nextPageToken = ""
    · rw [if_pos hstop]
      constructor
      · intro h
        rw [Option.some_inj] at h
        exact ⟨0, Nat.succ_pos _, fun j hj => absurd hj (Nat.not_lt_zero j), by simpa using hstop,
          by simp [← h]⟩
      · rintro ⟨k, hk, hprev, hcur, hres⟩
        rcases k with _ | k
        · rw [Option.some_inj]
          simpa using hres.symm
        · exact absurd (by simpa using hstop) (hprev 0 (Nat.succ_pos _))
    · rw [if_neg hstop]
      rw [ih (acc ++ p.offerMappingEntries) res]
      constructor
      · rintro ⟨k, hk, hprev, hcur, hres⟩
        refine ⟨k + 1, Nat.succ_lt_succ hk, ?_, by simpa using hcur, ?_⟩
        · intro j hj
          rcases j with _ | j
          · simpa using hstop
          · simpa using hprev j (Nat.lt_of_succ_lt_succ hj)
        · simp only [pagesEntriesB_cons_succ, List.append_assoc] at *
          exact hres
      · rintro ⟨k, hk, hprev, hcur, hres⟩
        rcases k with _ | k
        · exact absurd (by simpa using hcur) hstop
        · refine ⟨k, Nat.lt_of_succ_lt_succ hk, ?_, by simpa using hcur, ?_⟩
          · intro j hj
            simpa using hprev (j + 1) (Nat.succ_lt_succ hj)
          · simp only [pagesEntriesB_cons_succ, List.append_assoc] at *
            exact hres

/-! ### Helper lemmas about stock reconciliation -/

lemma createStocksLoop_rem (ws : List Watch) :
    ∀ (acc : List StockItem) (ids : List String) (st : List StockItem) (rem : List String),
      ids.Nodup → createStocksLoop ws acc ids = some (st, rem) →
      rem = ids.filter (fun i => decide (∀ w ∈ ws, w.code ≠ i)) := by
  induction ws with
  | nil =>
    intro acc ids st rem hnd h
    simp only [createStocksLoop, Option.some_inj, Prod.mk.injEq] at h
    rw [← h.2]
    simp
  | cons w ws ih =>
    intro acc ids st rem hnd h
    simp only [createStocksLoop] at h
    by_cases hmem : w.code ∈ ids
    · rw [if_pos hmem] at h
      cases hq : normalizeCount w.quantity with
      | none =>
        rw [hq] at h
        exact absurd h (by simp)
      | some q =>
        rw [hq] at h
        have hrem := ih (acc ++ [⟨w.code, q⟩]) (ids.erase w.code) st rem (hnd.erase w.code) h
        rw [hrem, List.Nodup.erase_eq_filter hnd w.code, List.filter_filter]
        apply List.filter_congr
        intro i hi
        by_cases hiw : i = w.code
        · subst hiw
          simp
        · simp [List.forall_mem_cons, hiw, Ne.symm hiw]
    · rw [if_neg hmem] at h
      rw [ih acc ids st rem hnd h]
      apply List.filter_congr
      intro i hi
      have hwc : w.code ≠ i := fun hh => hmem (hh ▸ hi)
      simp [List.forall_mem_cons, hwc]

lemma createStocksLoop_stocks (ws : List Watch) :
    ∀ (acc : List StockItem) (ids : List String) (st : List StockItem) (rem : List String),
      createStocksLoop ws acc ids = some (st, rem) →
      ∃ matched : List StockItem,
        st = acc ++ matched ∧
        (∀ e ∈ matched,
          ∃ w ∈ ws, e.offer_id = w.code ∧ normalizeCount w.quantity = some e.stock) ∧
        (matched.map StockItem.offer_id).Sublist (ws.map Watch.code) := by
  induction ws with
  | nil =>
    intro acc ids st rem h
    simp only [createStocksLoop, Option.some_inj, Prod.mk.injEq] at h
    exact ⟨[], by simp [← h.1], by simp, by simp⟩
  | cons w ws ih =>
    intro acc ids st rem h
    simp only [createStocksLoop] at h
    by_cases hmem : w.code ∈ ids
    · rw [if_pos hmem] at h
      cases hq : normalizeCount w.quantity with
      | none =>
        rw [hq] at h
        exact absurd h (by simp)
      | some q =>
        rw [hq] at h
        obtain ⟨matched, h1, h2, h3⟩ := ih (acc ++ [⟨w.code, q⟩]) (ids.erase w.code) st rem h
        refine ⟨⟨w.code, q⟩ :: matched, by simp [h1], ?_, ?_⟩
        · intro e he
          rcases List.mem_cons.mp he with rfl | he2
          · exact ⟨w, List.mem_cons_self _ _, rfl, hq⟩
          · obtain ⟨w2, hw2, ha, hb⟩ := h2 e he2
            exact ⟨w2, List.mem_cons_of_mem _ hw2, ha, hb⟩
        · simp only [List.map_cons]
          exact List.Sublist.cons₂ _ h3
    · rw [if_neg hmem] at h
      obtain ⟨matched, h1, h2, h3⟩ := ih acc ids st rem h
      refine ⟨matched, h1, ?_, ?_⟩
      · intro e he
        obtain ⟨w2, hw2, ha, hb⟩ := h2 e he
        exact ⟨w2, List.mem_cons_of_mem _ hw2, ha, hb⟩
      · simp only [List.map_cons]
        exact h3.cons _

lemma createStocksLoop_mem (ws : List Watch) :
    ∀ (acc : List StockItem) (ids : List String) (st : List StockItem) (rem : List String),
      ids.Nodup → createStocksLoop ws acc ids = some (st, rem) →
      ∀ i : String,
        i ∈ st.map StockItem.offer_id ↔
          i ∈ acc.map StockItem.offer_id ∨ (i ∈ ids ∧ ∃ w ∈ ws, w.code = i) := by
  induction ws with
  | nil =>
    intro acc ids st rem hnd h i
    simp only [createStocksLoop, Option.some_inj, Prod.mk.injEq] at h
    rw [← h.1]
    simp
  | cons w ws ih =>
    intro acc ids st rem hnd h i
    simp only [createStocksLoop] at h
    by_cases hmem : w.code ∈ ids
    · rw [if_pos hmem] at h
      cases hq : normalizeCount w.quantity with
      | none =>
        rw [hq] at h
        exact absurd h (by simp)
      | some q =>
        rw [hq] at h
        have hiff := ih (acc ++ [⟨w.code, q⟩]) (ids.erase w.code) st rem (hnd.erase w.code) h i
        rw [hiff, List.Nodup.mem_erase_iff hnd]
        simp only [List.map_append, List.mem_append, List.map_cons, List.map_nil,
          List.mem_singleton]
        constructor
        · rintro ((ha | heq) | ⟨⟨hne, hi⟩, w2, hw2, hc⟩)
          · exact Or.inl ha
          · exact Or.inr ⟨by rw [heq]; exact hmem, w, List.mem_cons_self _ _, heq.symm⟩
          · exact Or.inr ⟨hi, w2, List.mem_cons_of_mem _ hw2, hc⟩
        · rintro (ha | ⟨hi, w2, hw2, hc⟩)
          · exact Or.inl (Or.inl ha)
          · rcases List.mem_cons.mp hw2 with rfl | hw2b
            · exact Or.inl (Or.inr hc.symm)
            · by_cases hiw : i = w2.code
              · by_cases hiw2 : i = w.code
                · exact Or.inl (Or.inr hiw2)
                · exact Or.inr ⟨⟨hiw2, hi⟩, w2, hw2b, hc⟩
              · exact absurd hc.symm hiw
    · rw [if_neg hmem] at h
      rw [ih acc ids st rem hnd h i]
      simp only [List.mem_cons, exists_eq_or_imp]
      constructor
      · rintro (ha | ⟨hi, hex⟩)
        · exact Or.inl ha
        · exact Or.inr ⟨hi, Or.inr hex⟩
      · rintro (ha | ⟨hi, hwc | hex⟩)
        · exact Or.inl ha
        · exact absurd (hwc ▸ hi) hmem
        · exact Or.inr ⟨hi, hex⟩

lemma createStocksLoop_nodup (ws : List Watch) :
    ∀ (acc : List StockItem) (ids : List String) (st : List StockItem) (rem : List String),
      ids.Nodup → (acc.map StockItem.offer_id).Nodup →
      (∀ i ∈ ids, i ∉ acc.map StockItem.offer_id) →
      createStocksLoop ws acc ids = some (st, rem) →
      (st.map StockItem.offer_id).Nodup := by
  induction ws with
  | nil =>
    intro acc ids st rem hnd hacc hdisj h
    simp only [createStocksLoop, Option.some_inj, Prod.mk.injEq] at h
    rw [← h.1]
    exact hacc
  | cons w ws ih =>
    intro acc ids st rem hnd hacc hdisj h
    simp only [createStocksLoop] at h
    by_cases hmem : w.code ∈ ids
    · rw [if_pos hmem] at h
      cases hq : normalizeCount w.quantity with
      | none =>
        rw [hq] at h
        exact absurd h (by simp)
      | some q =>
        rw [hq] at h
        refine ih (acc ++ [⟨w.code, q⟩]) (ids.erase w.code) st rem (hnd.erase w.code) ?_ ?_ h
        · rw [List.map_append, List.nodup_append]
          refine ⟨hacc, by simp, ?_⟩
          intro a ha hb
          simp at hb
          subst hb
          exact hdisj w.code hmem ha
        · intro i hi
          have hi2 := (List.Nodup.mem_erase_iff hnd).mp hi
          simp only [List.map_append, List.mem_append, List.map_cons, List.map_nil,
            List.mem_singleton, not_or]
          exact ⟨hdisj i hi2.2, by simpa using hi2.1⟩
    · rw [if_neg hmem] at h
      exact ih acc ids st rem hnd hacc hdisj h

/-- The payload-shape correspondence between an Ozon stock entry and the
Yandex.Market entry with the same identifier and quantity. -/
def stockItemToB (wh date : String) (e : StockItem) : StockItemB :=
  ⟨e.offer_id, wh, [⟨e.stock, "FIT", date⟩]⟩

lemma map_offer_id_zero (l : List String) :
    (l.map (fun i => (⟨i, 0⟩ : StockItem))).map StockItem.offer_id = l := by
  induction l with
  | nil => rfl
  | cons a t ih => simp [ih]

lemma marketStocksLoop_eq (wh date : String) (ws : List Watch) :
    ∀ (acc : List StockItem) (ids : List String),
      marketStocksLoop wh date ws (acc.map (stockItemToB wh date)) ids =
        (createStocksLoop ws acc ids).map
          (fun pr => (pr.1.map (stockItemToB wh date), pr.2)) := by
  induction ws with
  | nil =>
    intro acc ids
    simp [marketStocksLoop, createStocksLoop]
  | cons w ws ih =>
    intro acc ids
    simp only [marketStocksLoop, createStocksLoop]
    by_cases hmem : w.code ∈ ids
    · rw [if_pos hmem, if_pos hmem]
      cases hq : normalizeCount w.quantity with
      | none => simp
      | some q =>
        show marketStocksLoop wh date ws
            (acc.map (stockItemToB wh date) ++ [⟨w.code, wh, [⟨q, "FIT", date⟩]⟩])
            (ids.erase w.code) =
          (createStocksLoop ws (acc ++ [⟨w.code, q⟩]) (ids.erase w.code)).map
            (fun pr => (pr.1.map (stockItemToB wh date), pr.2))
        have hmap : acc.map (stockItemToB wh date) ++
            [(⟨w.code, wh, [⟨q, "FIT", date⟩]⟩ : StockItemB)] =
            (acc ++ [(⟨w.code, q⟩ : StockItem)]).map (stockItemToB wh date) := by
          simp [stockItemToB]
        rw [hmap]
        exact ih (acc ++ [⟨w.code, q⟩]) (ids.erase w.code)
    · rw [if_neg hmem, if_neg hmem]
      exact ih acc ids

lemma market_create_stocks_eq (ws : List Watch) (ids : List String) (wh date : String) :
    market_create_stocks ws ids wh date =
      (create_stocks ws ids).map
        (fun pr => (pr.1.map (stockItemToB wh date), pr.2)) := by
  unfold market_create_stocks create_stocks
  have hbr := marketStocksLoop_eq wh date ws [] ids
  simp only [List.map_nil] at hbr
  rw [hbr]
  cases createStocksLoop ws [] ids with
  | none => simp
  | some pr =>
    cases pr with
    | mk st rest => simp [stockItemToB]

/-! ### Helper lemmas about price reconciliation -/

lemma create_prices_eq_filter_map (ws : List Watch) (ids : List String) :
    create_prices ws ids =
      (ws.filter (fun w => decide (w.code ∈ ids))).map
        (fun w => ⟨"UNKNOWN", "RUB", w.code, "0", price_conversion w.price⟩) := by
  induction ws with
  | nil => rfl
  | cons w rest ih =>
    by_cases hmem : w.code ∈ ids
    · simp [create_prices, hmem, List.filter_cons, ih]
    · simp [create_prices, hmem, List.filter_cons, ih]

lemma market_create_prices_ids (ws : List Watch) (ids : List String) :
    ∀ ps, market_create_prices ws ids = some ps →
      ps.map PriceItemB.id = (ws.filter (fun w => decide (w.code ∈ ids))).map Watch.code := by
  induction ws with
  | nil =>
    intro ps h
    simp only [market_create_prices, Option.some_inj] at h
    simp [← h]
  | cons w rest ih =>
    intro ps h
    simp only [market_create_prices] at h
    by_cases hmem : w.code ∈ ids
    · rw [if_pos hmem] at h
      cases hp : pyInt (price_conversion w.price) with
      | none =>
        rw [hp] at h
        exact absurd h (by simp)
      | some v =>
        rw [hp] at h
        cases hrest : market_create_prices rest ids with
        | none =>
          rw [hrest] at h
          exact absurd h (by simp)
        | some ps2 =>
          rw [hrest] at h
          simp only [Option.map_some', Option.some_inj] at h
          rw [← h]
          simp [List.filter_cons, hmem, ih ps2 hrest]
    · rw [if_neg hmem] at h
      simp [List.filter_cons, hmem, ih ps h]

lemma create_prices_eq_nil (ws : List Watch) (ids : List String)
    (h : ∀ w ∈ ws, w.code ∉ ids) : create_prices ws ids = [] := by
  induction ws with
  | nil => rfl
  | cons w rest ih =>
    simp only [create_prices, if_neg (h w (List.mem_cons_self _ _))]
    exact ih fun w2 hw2 => h w2 (List.mem_cons_of_mem _ hw2)

lemma market_create_prices_eq_nil (ws : List Watch) (ids : List String)
    (h : ∀ w ∈ ws, w.code ∉ ids) : market_create_prices ws ids = some [] := by
  induction ws with
  | nil => rfl
  | cons w rest ih =>
    simp only [market_create_prices, if_neg (h w (List.mem_cons_self _ _))]
    exact ih fun w2 hw2 => h w2 (List.mem_cons_of_mem _ hw2)

/-! ### Claim theorems -/

/-- C1: on inputs without duplicate listed identifiers on which it
succeeds, `create_stocks` returns the matched entries first — one per
listed identifier matched by an inventory record, in inventory order,
carrying the normalized quantity — followed by one zero-quantity entry per
listed identifier matched by no record, in remaining-identifier order; no
listed identifier is dropped. `market.create_stocks` is the same
reconciliation up to the Yandex payload shape. -/
theorem create_stocks_characterization
    (ws : List Watch) (ids : List String) (st : List StockItem) (rem : List String)
    (hnd : ids.Nodup) (h : create_stocks ws ids = some (st, rem)) :
    (∃ matched : List StockItem,
      st = matched ++ rem.map (fun i => ⟨i, 0⟩) ∧
      (∀ e ∈ matched,
        ∃ w ∈ ws, e.offer_id = w.code ∧ normalizeCount w.quantity = some e.stock) ∧
      (matched.map StockItem.offer_id).Sublist (ws.map Watch.code) ∧
      (∀ i : String,
        i ∈ matched.map StockItem.offer_id ↔ i ∈ ids ∧ ∃ w ∈ ws, w.code = i)) ∧
    rem = ids.filter (fun i => decide (∀ w ∈ ws, w.code ≠ i)) ∧
    (∀ i ∈ ids, i ∈ st.map StockItem.offer_id) ∧
    (∀ wh date : String,
      market_create_stocks ws ids wh date = some (st.map (stockItemToB wh date), rem)) := by
  have horig := h
  unfold create_stocks at h
  cases hloop : createStocksLoop ws [] ids with
  | none =>
    rw [hloop] at h
    exact absurd h (by simp)
  | some pr =>
    obtain ⟨st0, rem0⟩ := pr
    rw [hloop] at h
    simp only [Option.some_inj, Prod.mk.injEq] at h
    obtain ⟨hst, hrem⟩ := h
    have hrem2 : rem = rem0 := hrem.symm
    subst hrem2
    obtain ⟨matched, hm1, hm2, hm3⟩ := createStocksLoop_stocks ws [] ids st0 rem hloop
    simp only [List.nil_append] at hm1
    subst hm1
    have hmem := createStocksLoop_mem ws [] ids st0 rem hnd hloop
    simp only [List.map_nil, List.not_mem_nil, false_or] at hmem
    have hremeq := createStocksLoop_rem ws [] ids st0 rem hnd hloop
    refine ⟨⟨st0, hst.symm, hm2, hm3, hmem⟩, hremeq, ?_, ?_⟩
    · intro i hi
      rw [← hst, List.map_append]
      by_cases hex : ∃ w ∈ ws, w.code = i
      · exact List.mem_append_left _ ((hmem i).mpr ⟨hi, hex⟩)
      · apply List.mem_append_right
        push_neg at hex
        have : i ∈ rem := by
          rw [hremeq]
          exact List.mem_filter.mpr ⟨hi, by simpa using hex⟩
        simpa using this
    · intro wh date
      rw [market_create_stocks_eq ws ids wh date, horig]
      rfl

/-- C1 witness: on inventory `[("A", qty "5")]` and listed ids
`["A", "B"]` the consumed remainder is `["B"]` and both listed
identifiers appear in the output. -/
theorem create_stocks_characterization_witness :
    (["B"] : List String) =
      ["A", "B"].filter (fun i => decide (∀ w ∈ [(⟨"A", "5", "10"⟩ : Watch)], w.code ≠ i)) ∧
    ∀ i ∈ (["A", "B"] : List String),
      i ∈ ([⟨"A", 5⟩, ⟨"B", 0⟩] : List StockItem).map StockItem.offer_id :=
  ⟨(create_stocks_characterization [⟨"A", "5", "10"⟩] ["A", "B"] [⟨"A", 5⟩, ⟨"B", 0⟩]
      ["B"] (by decide) (by decide)).2.1,
   (create_stocks_characterization [⟨"A", "5", "10"⟩] ["A", "B"] [⟨"A", 5⟩, ⟨"B", 0⟩]
      ["B"] (by decide) (by decide)).2.2.1⟩

/-- C10: within one reconciliation pass over listed identifiers without
duplicates, each listed identifier is consumed at most once: the returned
stock list has pairwise-distinct offer identifiers, in both modules, even
when several inventory records share the same code. -/
theorem create_stocks_no_duplicate_ids
    (ws : List Watch) (ids : List String) (st : List StockItem) (rem : List String)
    (hnd : ids.Nodup) (h : create_stocks ws ids = some (st, rem)) :
    (st.map StockItem.offer_id).Nodup ∧
    ∀ (wh date : String) (stB : List StockItemB) (remB : List String),
      market_create_stocks ws ids wh date = some (stB, remB) →
      (stB.map StockItemB.sku).Nodup := by
  have hmain : (st.map StockItem.offer_id).Nodup := by
    unfold create_stocks at h
    cases hloop : createStocksLoop ws [] ids with
    | none =>
      rw [hloop] at h
      exact absurd h (by simp)
    | some pr =>
      obtain ⟨st0, rem0⟩ := pr
      rw [hloop] at h
      simp only [Option.some_inj, Prod.mk.injEq] at h
      obtain ⟨hst, hrem⟩ := h
      have hrem2 : rem = rem0 := hrem.symm
      subst hrem2
      rw [← hst, List.map_append]
      have h1 : (st0.map StockItem.offer_id).Nodup :=
        createStocksLoop_nodup ws [] ids st0 rem hnd (by simp) (by simp) hloop
      have hremeq := createStocksLoop_rem ws [] ids st0 rem hnd hloop
      have h2 : ((rem.map (fun i => (⟨i, 0⟩ : StockItem))).map StockItem.offer_id).Nodup := by
        have hrn : rem.Nodup := hremeq ▸ hnd.filter _
        rw [map_offer_id_zero]
        exact hrn
      rw [List.nodup_append]
      refine ⟨h1, h2, ?_⟩
      intro a ha hb
      have hmem := createStocksLoop_mem ws [] ids st0 rem hnd hloop
      simp only [List.map_nil, List.not_mem_nil, false_or] at hmem
      obtain ⟨-, w, hw, hwc⟩ := (hmem a).mp ha
      have : a ∈ rem := by simpa using hb
      rw [hremeq] at this
      have := (List.mem_filter.mp this).2
      simp only [decide_eq_true_eq] at this
      exact this w hw hwc
  refine ⟨hmain, ?_⟩
  intro wh date stB remB hB
  rw [market_create_stocks_eq ws ids wh date, h] at hB
  simp only [Option.map_some', Option.some_inj, Prod.mk.injEq] at hB
  rw [← hB.1]
  have : (st.map (stockItemToB wh date)).map StockItemB.sku = st.map StockItem.offer_id := by
    simp [stockItemToB, Function.comp]
  rw [this]
  exact hmain

/-- C10 witness: two inventory records with the same code against distinct
listed ids still yield pairwise-distinct offer identifiers. -/
theorem create_stocks_no_duplicate_ids_witness :
    (([⟨"A", 5⟩, ⟨"B", 0⟩] : List StockItem).map StockItem.offer_id).Nodup :=
  (create_stocks_no_duplicate_ids [⟨"A", "5", "10"⟩, ⟨"A", "7", "10"⟩] ["A", "B"]
    [⟨"A", 5⟩, ⟨"B", 0⟩] ["B"] (by decide) (by decide)).1

/-- C4: `create_stocks` consumes its `offer_ids` argument in place: upon
return (modelled by the second component) the list holds exactly the
listed identifiers matched by no inventory record, and a subsequent
`create_prices` call over that same list — as in `seller.main` — returns
no price updates at all. -/
theorem create_stocks_consumes_offer_ids
    (ws : List Watch) (ids : List String) (st : List StockItem) (rem : List String)
    (hnd : ids.Nodup) (h : create_stocks ws ids = some (st, rem)) :
    rem = ids.filter (fun i => decide (∀ w ∈ ws, w.code ≠ i)) ∧
    create_prices ws rem = [] ∧
    market_create_prices ws rem = some [] := by
  have hremeq : rem = ids.filter (fun i => decide (∀ w ∈ ws, w.code ≠ i)) := by
    unfold create_stocks at h
    cases hloop : createStocksLoop ws [] ids with
    | none =>
      rw [hloop] at h
      exact absurd h (by simp)
    | some pr =>
      obtain ⟨st0, rem0⟩ := pr
      rw [hloop] at h
      simp only [Option.some_inj, Prod.mk.injEq] at h
      rw [← h.2]
      exact createStocksLoop_rem ws [] ids st0 rem0 hnd hloop
  have hdisj : ∀ w ∈ ws, w.code ∉ rem := by
    intro w hw hmem
    rw [hremeq] at hmem
    have := (List.mem_filter.mp hmem).2
    simp only [decide_eq_true_eq] at this
    exact this w hw rfl
  exact ⟨hremeq, create_prices_eq_nil ws rem hdisj, market_create_prices_eq_nil ws rem hdisj⟩

/-- C4 witness: after reconciling inventory `[("A", qty "5")]` against
`["A", "B"]`, the remaining list is `["B"]` and pricing over it is empty. -/
theorem create_stocks_consumes_offer_ids_witness :
    create_prices [(⟨"A", "5", "10"⟩ : Watch)] ["B"] = [] ∧
    market_create_prices [(⟨"A", "5", "10"⟩ : Watch)] ["B"] = some [] :=
  ⟨(create_stocks_consumes_offer_ids [⟨"A", "5", "10"⟩] ["A", "B"] [⟨"A", 5⟩, ⟨"B", 0⟩]
      ["B"] (by decide) (by decide)).2.1,
   (create_stocks_consumes_offer_ids [⟨"A", "5", "10"⟩] ["A", "B"] [⟨"A", 5⟩, ⟨"B", 0⟩]
      ["B"] (by decide) (by decide)).2.2⟩

/-- C3: `create_prices` returns exactly one price entry per inventory
record whose code is among the listed identifiers (in both modules), and
no entry at all for a listed identifier matched by no inventory record —
no zero or placeholder prices, asymmetric with stock handling. -/
theorem create_prices_exactly_matching (ws : List Watch) (ids : List String) :
    create_prices ws ids =
      (ws.filter (fun w => decide (w.code ∈ ids))).map
        (fun w => ⟨"UNKNOWN", "RUB", w.code, "0", price_conversion w.price⟩) ∧
    (∀ ps, market_create_prices ws ids = some ps →
      ps.map PriceItemB.id = (ws.filter (fun w => decide (w.code ∈ ids))).map Watch.code) ∧
    (∀ i ∈ ids, (∀ w ∈ ws, w.code ≠ i) →
      (∀ p ∈ create_prices ws ids, p.offer_id ≠ i) ∧
      (∀ ps, market_create_prices ws ids = some ps → ∀ p ∈ ps, p.id ≠ i)) := by
  refine ⟨create_prices_eq_filter_map ws ids, market_create_prices_ids ws ids, ?_⟩
  intro i _ hno
  constructor
  · intro p hp hpid
    rw [create_prices_eq_filter_map] at hp
    obtain ⟨w, hw, hpw⟩ := List.mem_map.mp hp
    have hw2 := List.mem_filter.mp hw
    apply hno w hw2.1
    rw [← hpid, ← hpw]
  · intro ps hps p hp hpid
    have hmap := market_create_prices_ids ws ids ps hps
    have hin : p.id ∈ ps.map PriceItemB.id := List.mem_map_of_mem _ hp
    rw [hmap] at hin
    obtain ⟨w, hw, hwc⟩ := List.mem_map.mp hin
    have hw2 := List.mem_filter.mp hw
    exact hno w hw2.1 (by rw [hwc, hpid])

/-- C3 witness: with inventory `[("A", price "9")]` and listed ids
`["A", "B"]`, the identifier "B" gets no price entry while "A" gets
exactly one, in both modules. -/
theorem create_prices_exactly_matching_witness :
    ([(⟨"A", ⟨9, "RUR"⟩⟩ : PriceItemB)].map PriceItemB.id =
      ([(⟨"A", "5", "9"⟩ : Watch)].filter
        (fun w => decide (w.code ∈ (["A", "B"] : List String)))).map Watch.code) ∧
    (∀ p ∈ create_prices [(⟨"A", "5", "9"⟩ : Watch)] ["A", "B"], p.offer_id ≠ "B") :=
  ⟨(create_prices_exactly_matching [⟨"A", "5", "9"⟩] ["A", "B"]).2.1
      [⟨"A", ⟨9, "RUR"⟩⟩] (by decide),
   ((create_prices_exactly_matching [⟨"A", "5", "9"⟩] ["A", "B"]).2.2 "B"
      (by decide) (by decide)).1⟩

/-- C2 counterexample: the quantity normalizer is not always non-negative —
the text `"-5"` parses as the negative quantity `-5`. -/
theorem normalizeCount_negative_output :
    normalizeCount "-5" = some (-5) ∧ ((-5 : Int) < 0) := by
  exact ⟨by decide, by decide⟩

/-- C2 amended: the normalizer maps the exact text `">10"` to 100, the
exact text `"1"` to 0, and any other text to its Python `int` parse
(failing when not parseable); the result is non-negative whenever the
text contains no minus sign, but a parseable negative text yields a
negative quantity. -/
theorem normalizeCount_spec :
    normalizeCount ">10" = some 100 ∧
    normalizeCount "1" = some 0 ∧
    (∀ s : String, s ≠ ">10" → s ≠ "1" → normalizeCount s = pyInt s) ∧
    (∀ (s : String) (q : Int), normalizeCount s = some q →
      (∀ c ∈ s.toList, c ≠ '-') → 0 ≤ q) := by
  refine ⟨by decide, by decide, ?_, ?_⟩
  · intro s h1 h2
    simp [normalizeCount, h1, h2]
  · intro s q hq hnm
    by_cases h1 : s = ">10"
    · rw [h1] at hq
      rw [show normalizeCount ">10" = some 100 from by decide, Option.some_inj] at hq
      omega
    · by_cases h2 : s = "1"
      · rw [h2] at hq
        rw [show normalizeCount "1" = some 0 from by decide, Option.some_inj] at hq
        omega
      · rw [show normalizeCount s = pyInt s from by simp [normalizeCount, h1, h2]] at hq
        exact pyInt_nonneg s q hq fun hc => hnm '-' hc rfl

/-- C2 witness: an ordinary numeric text goes through the integer parse
and yields a non-negative quantity. -/
theorem normalizeCount_spec_witness :
    normalizeCount "42" = pyInt "42" ∧ (0 : Int) ≤ 42 :=
  ⟨normalizeCount_spec.2.2.1 "42" (by decide) (by decide),
   normalizeCount_spec.2.2.2 "42" 42 (by decide) (by decide)⟩

/-- C5: for every list and chunk size `n > 0`, the batcher's chunks
concatenate back to the original list in order, every chunk has length at
most `n`, and the number of chunks shorter than `n` is one unless the
length is a multiple of `n` (in which case it is zero). -/
theorem divide_chunks_spec {α : Type u} (lst : List α) (n : Nat) (hn : 0 < n) :
    (divide lst n).flatten = lst ∧
    (∀ c ∈ divide lst n, c.length ≤ n) ∧
    (divide lst n).countP (fun c => decide (c.length < n)) =
      (if n ∣ lst.length then 0 else 1) :=
  ⟨divide_flatten lst n hn, divide_chunk_le lst n, divide_short_count lst n hn⟩

/-- C5 witness: `[1, 2, 3, 4, 5]` in chunks of 2. -/
theorem divide_chunks_spec_witness :
    (divide [1, 2, 3, 4, 5] 2).flatten = [1, 2, 3, 4, 5] ∧
    (∀ c ∈ divide [1, 2, 3, 4, 5] 2, c.length ≤ 2) ∧
    (divide [1, 2, 3, 4, 5] 2).countP (fun c => decide (c.length < 2)) =
      (if 2 ∣ ([1, 2, 3, 4, 5] : List Nat).length then 0 else 1) :=
  divide_chunks_spec [1, 2, 3, 4, 5] 2 (by decide)

/-- C6: the Ozon pagination loop returns exactly when the reported total
first equals the number of accumulated items, and the Yandex.Market loop
exactly when the next-page cursor is first empty; each then returns the
flat ordered identifier list across the consumed pages. -/
theorem get_offer_ids_termination :
    (∀ (pages : List PageA) (ids : List String),
      get_offer_ids pages = some ids ↔
        ∃ k, k < pages.length ∧
          (∀ j, j < k → (pages.getD j default).total ≠ (pagesItemsA pages j).length) ∧
          (pages.getD k default).total = (pagesItemsA pages k).length ∧
          ids = (pagesItemsA pages k).map ProductA.offer_id) ∧
    (∀ (pages : List PageB) (ids : List String),
      market_get_offer_ids pages = some ids ↔
        ∃ k, k < pages.length ∧
          (∀ j, j < k → (pages.getD j default).nextPageToken ≠ "") ∧
          (pages.getD k default).nextPageToken = "" ∧
          ids = (pagesEntriesB pages k).map EntryB.shopSku) := by
  constructor
  · intro pages ids
    simp only [get_offer_ids, Option.map_eq_some']
    constructor
    · rintro ⟨res, hres, rfl⟩
      obtain ⟨k, hk, hprev, hcur, hres2⟩ := (getOfferIdsLoopA_eq_some pages [] res).mp hres
      exact ⟨k, hk, by simpa using hprev, by simpa using hcur, by simp [hres2]⟩
    · rintro ⟨k, hk, hprev, hcur, hids⟩
      exact ⟨pagesItemsA pages k,
        (getOfferIdsLoopA_eq_some pages [] _).mpr
          ⟨k, hk, by simpa using hprev, by simpa using hcur, by simp⟩,
        hids.symm⟩
  · intro pages ids
    simp only [market_get_offer_ids, Option.map_eq_some']
    constructor
    · rintro ⟨res, hres, rfl⟩
      obtain ⟨k, hk, hprev, hcur, hres2⟩ := (getOfferIdsLoopB_eq_some pages [] res).mp hres
      exact ⟨k, hk, hprev, hcur, by simp [hres2]⟩
    · rintro ⟨k, hk, hprev, hcur, hids⟩
      exact ⟨pagesEntriesB pages k,
        (getOfferIdsLoopB_eq_some pages [] _).mpr ⟨k, hk, hprev, hcur, by simp⟩,
        hids.symm⟩

/-- C6 witness: a two-page Ozon run that stops when the total matches, and
a two-page Yandex run that stops on the empty cursor. -/
theorem get_offer_ids_termination_witness :
    get_offer_ids [⟨[⟨"x"⟩, ⟨"y"⟩], 3, "c"⟩, ⟨[⟨"z"⟩], 3, "d"⟩] = some ["x", "y", "z"] ∧
    market_get_offer_ids [⟨[⟨"u"⟩], "t"⟩, ⟨[⟨"v"⟩], ""⟩] = some ["u", "v"] := by
  constructor
  · refine (get_offer_ids_termination.1 _ _).mpr ⟨1, by decide, ?_, by decide, by decide⟩
    intro j hj
    interval_cases j
    decide
  · refine (get_offer_ids_termination.2 _ _).mpr ⟨1, by decide, ?_, by decide, by decide⟩
    intro j hj
    interval_cases j
    decide

/-- C7 counterexample: on a price text with no digits, `seller.create_prices`
emits a price update whose price value is the empty string — the
normalizer's empty output is passed through, not treated as a failure. -/
theorem create_prices_emits_empty_price :
    create_prices [⟨"A", "5", "Ошибка"⟩] ["A"] =
      [⟨"UNKNOWN", "RUB", "A", "0", ""⟩] ∧
    price_conversion "Ошибка" = "" := by
  exact ⟨by decide, by decide⟩

/-- C7 amended: the two modules diverge on an empty normalized price —
`market.create_prices` aborts with an integer-conversion failure for any
matched record whose normalized price is empty, while
`seller.create_prices` passes the empty string through as the emitted
price value. -/
theorem empty_price_handling (ws : List Watch) (ids : List String) :
    ((∃ w ∈ ws, w.code ∈ ids ∧ price_conversion w.price = "") →
      market_create_prices ws ids = none) ∧
    (∀ w ∈ ws, w.code ∈ ids →
      ∃ p ∈ create_prices ws ids, p.offer_id = w.code ∧ p.price = price_conversion w.price) := by
  constructor
  · rintro ⟨w, hw, hcode, hempty⟩
    exact market_create_prices_fails ws ids w hw hcode hempty
  · intro w hw hcode
    exact create_prices_mem_of_match ws ids w hw hcode

/-- C7 witness: a concrete no-digit price aborts the Yandex variant and is
passed through by the Ozon variant. -/
theorem empty_price_handling_witness :
    market_create_prices [(⟨"A", "5", "Ошибка"⟩ : Watch)] ["A"] = none ∧
    ∃ p ∈ create_prices [(⟨"B", "5", "Ошибка"⟩ : Watch)] ["B"],
      p.offer_id = "B" ∧ p.price = price_conversion "Ошибка" :=
  ⟨(empty_price_handling [⟨"A", "5", "Ошибка"⟩] ["A"]).1
      ⟨⟨"A", "5", "Ошибка"⟩, by decide, by decide, by decide⟩,
   (empty_price_handling [⟨"B", "5", "Ошибка"⟩] ["B"]).2
      ⟨"B", "5", "Ошибка"⟩ (by decide) (by decide)⟩

/-- C8 counterexample: when parsing fails, `download_stock` never reaches
the removal statement — the extracted temporary file is not cleaned up. -/
theorem download_stock_no_cleanup_on_error :
    (download_stock_after_extract (Except.error "parse failure")).2 = false := rfl

/-- C8 amended: `download_stock` removes the extracted spreadsheet exactly
when parsing succeeds; a parse exception propagates before the removal
statement, leaving the file behind. -/
theorem download_stock_cleanup_iff_ok (parsed : Except String (List Watch)) :
    (download_stock_after_extract parsed).1 = parsed ∧
    ((download_stock_after_extract parsed).2 = true ↔ ∃ ws, parsed = Except.ok ws) := by
  cases parsed with
  | error e => simp [download_stock_after_extract]
  | ok ws => simp [download_stock_after_extract]

/-- C8 witness: on a successful parse the file is removed. -/
theorem download_stock_cleanup_iff_ok_witness :
    (download_stock_after_extract (Except.ok [])).2 = true :=
  (download_stock_cleanup_iff_ok (Except.ok [])).2.mpr ⟨[], rfl⟩

/-- C9: `price_conversion` keeps exactly the digits of the part of its
input before the first dot: it equals take-until-dot composed with a
digit filter, `"5'990.00 руб."` yields `"5990"`, and a digit-free input
yields the empty string. -/
theorem price_conversion_spec :
    (∀ price : String,
      price_conversion price =
        String.mk ((price.toList.takeWhile (fun c => c != '.')).filter Char.isDigit)) ∧
    price_conversion "5'990.00 руб." = "5990" ∧
    price_conversion "Ошибка" = "" := by
  refine ⟨fun price => ?_, by decide, by decide⟩
  rw [price_conversion, splitDot_headD]
  simp

end SellerApis
